import Mathlib

/-!
Verification development for the expression-parsing core of `solvurus-engine`
(`src/numeric_evaluator/parser.rs`).

The Rust source uses the `pest` crate: a declarative grammar
(`grammar/numeric_evaluator.pest`, not present under `src/`) turns the input
text into a token tree of `Pair`s, and a `PrattParser` precedence climber
(`PRATT_PARSER` plus the closures in `parse_expr`) turns that token tree into
the `Expr` AST.  The grammar file and the `Expr`/`Op` declarations (pulled in
via `use super::{Expr, Op}`) are not part of `src/`, so they are modelled from
the specification; the Pratt engine and the functions `parse_expr`,
`parse_function` and `parse` are embedded from the source.

Modelling conventions:
* Rust panics (`unwrap`, `unreachable!`, `panic!`) and the grammar's structured
  rejection are all returned as values of the `ParseFailure` type.
* `f64` literal values are modelled as exact rationals; IEEE rounding is not
  modelled (no claim here depends on it).
* The recursion of the Pratt engine is bounded by an explicit fuel parameter so
  that every definition is executable by kernel reduction; the entry points
  supply fuel computed from the input size, and the totality theorem shows the
  fuel is never exhausted on grammar-shaped token trees.
-/

namespace NumericEvaluator

/-- Binary operator tags of the AST: the `Op` enum consumed by `parser.rs`
via `use super::{Expr, Op}`. -/
inductive Op where
  | Add
  | Subtract
  | Multiply
  | Divide
  | Modulo
  | Power
  deriving DecidableEq

/-- Expression AST: the `Expr` enum consumed by `parser.rs` via
`use super::{Expr, Op}`.  `Number` holds the parsed numeric value (an exact
rational models the `f64`), `BinOp` owns both operands and its operator,
`UnaryMinus` owns one operand, and `Function` owns a name and the ordered
argument list. -/
inductive Expr where
  | Number (value : ℚ)
  | BinOp (lhs : Expr) (op : Op) (rhs : Expr)
  | UnaryMinus (operand : Expr)
  | Function (name : String) (args : List Expr)

/-- Grammar rule tags: the pest `Rule` enum generated from
`grammar/numeric_evaluator.pest`, as consumed by `parser.rs` (the spec's token
tree node kinds, §3). -/
inductive Rule where
  | number
  | add
  | subtract
  | multiply
  | divide
  | modulo
  | power
  | unary_minus
  | expr
  | function
  | function_name
  | function_args
  | equation
  deriving DecidableEq

/-- Token-tree node, modelling a pest `Pair`: a rule tag, the matched text
(`as_str`), and the ordered child pairs (`into_inner`). -/
inductive Pair where
  | mk (rule : Rule) (text : String) (inner : List Pair)

/-- Rule tag of a pair (`Pair::as_rule`). -/
def Pair.rule : Pair → Rule
  | .mk r _ _ => r

/-- Matched text of a pair (`Pair::as_str`). -/
def Pair.text : Pair → String
  | .mk _ t _ => t

/-- Child pairs of a pair (`Pair::into_inner`). -/
def Pair.inner : Pair → List Pair
  | .mk _ _ i => i

theorem Pair.rule_mk (r : Rule) (t : String) (i : List Pair) : (Pair.mk r t i).rule = r := rfl

theorem Pair.text_mk (r : Rule) (t : String) (i : List Pair) : (Pair.mk r t i).text = t := rfl

theorem Pair.inner_mk (r : Rule) (t : String) (i : List Pair) : (Pair.mk r t i).inner = i := rfl

mutual

/-- Structural size of a token-tree node (used as the fuel measure). -/
def Pair.size : Pair → Nat
  | .mk _ _ i => 1 + Pair.sizeList i

/-- Structural size of a pair list (used as the fuel measure). -/
def Pair.sizeList : List Pair → Nat
  | [] => 1
  | p :: rest => 1 + p.size + Pair.sizeList rest

end

/-- Failure outcomes of the pipeline.  `grammarReject` models the structured
`Err` of `CalculatorParser::parse` (which `parse` unwraps); every other
constructor models a panic of the parsing stage: `emptyPairs` is pest's
"Pratt parsing expects non-empty Pairs" expect, `expectedPrimary` is pest's
"Expected prefix or primary expression" panic, `expectedAtom` is the
`unreachable!` in the `map_primary` closure, `expectedOperation` and
`expectedPreOperation` are the `unreachable!` arms of the `map_infix` and
`map_prefix` closures, `floatFailure` is the `unwrap` on
`str::parse::<f64>`, and `unknownFunctionPair` is the `panic!("Unknown")` in
`parse_function`.  `fuelExhausted` is an artifact of the fuel-bounded
embedding of the recursion; the totality theorem shows it never occurs for
grammar-shaped token trees. -/
inductive ParseFailure where
  | grammarReject
  | emptyPairs
  | expectedPrimary (r : Rule)
  | expectedAtom (r : Rule)
  | expectedOperation (r : Rule)
  | expectedPreOperation (r : Rule)
  | floatFailure (s : String)
  | unknownFunctionPair (r : Rule)
  | fuelExhausted
  deriving DecidableEq

/-- Two-tier error taxonomy of the design (§7 of the spec): `grammarReject` is
the ordinary syntax rejection a caller can recover from; everything else is an
internal contract violation (a panic in the Rust code), loudly distinct from a
syntax rejection. -/
def ParseFailure.isInternal : ParseFailure → Bool
  | .grammarReject => false
  | _ => true

/-- Operator associativity: pest's `Assoc`. -/
inductive Assoc where
  | left
  | right
  deriving DecidableEq

/-- Classification of a rule by the precedence climber: a registered binary
operator with associativity and precedence, the registered unary-minus
operator with its precedence, or an unregistered rule (a primary). -/
inductive Affix where
  | binRule (assoc : Assoc) (prec : Nat)
  | preRule (prec : Nat)
  | primaryRule
  deriving DecidableEq

/-- The `PRATT_PARSER` table of `parser.rs`.  Precedence is registered lowest
to highest: add/subtract (left), then multiply/divide/modulo (left), then
power (right), then unary minus; pest assigns increasing precedence per
`.op` call (`PREC_STEP = 10`). -/
def PRATT_PARSER : Rule → Affix
  | .add => .binRule .left 10
  | .subtract => .binRule .left 10
  | .multiply => .binRule .left 20
  | .divide => .binRule .left 20
  | .modulo => .binRule .left 20
  | .power => .binRule .right 30
  | .unary_minus => .preRule 40
  | _ => .primaryRule

/-- Numeric value of a decimal digit list. -/
def digitsVal (l : List Char) : Nat :=
  l.foldl (fun a c => a * 10 + (c.toNat - '0'.toNat)) 0

/-- Model of Rust `str::parse::<f64>` on the literal texts this program can
meet: an optionally signed decimal literal (digits, optional point, optional
fractional digits, at least one digit in total) parses to its exact value; any
other text is `none`, as Rust's parse is `Err` there.  (Exponent forms and the
IEEE rounding of `f64` are not modelled; the grammar only produces plain
decimal literals and no claim depends on rounding.) -/
def parseFloat (s : String) : Option ℚ :=
  let signed : ℚ × List Char :=
    match s.data with
    | '-' :: rest => (-1, rest)
    | '+' :: rest => (1, rest)
    | cs => (1, cs)
  let sgn := signed.1
  let cs := signed.2
  let ds := cs.takeWhile Char.isDigit
  let rest := cs.dropWhile Char.isDigit
  match rest with
  | [] =>
    if ds.isEmpty then none
    else some (sgn * (digitsVal ds : ℚ))
  | '.' :: frac =>
    if frac.all Char.isDigit && !(ds.isEmpty && frac.isEmpty) then
      some (sgn * ((digitsVal ds : ℚ) + (digitsVal frac : ℚ) / (10 : ℚ) ^ frac.length))
    else none
  | _ => none

/-- Parsed value of a numeric literal text (zero for unparseable text); used
only to state expected results concisely. -/
def numv (s : String) : ℚ := (parseFloat s).getD 0

/-- Operator match of the `map_infix` closure in `parse_expr`: each registered
binary rule maps to its `Op`; the catch-all arm is that closure's
`unreachable!` (dead for rules the table registers as binary). -/
def mapBinRule (r : Rule) : Except ParseFailure Op :=
  match r with
  | .add => .ok .Add
  | .subtract => .ok .Subtract
  | .multiply => .ok .Multiply
  | .divide => .ok .Divide
  | .modulo => .ok .Modulo
  | .power => .ok .Power
  | _ => .error (.expectedOperation r)

mutual

/-- Embedding of `parse_expr` from `parser.rs`:
`PRATT_PARSER.map_primary(..).map_infix(..).map_prefix(..).parse(pairs)`.
The climber starts with minimum precedence 0 and the built expression is
returned (pest's `parse` drops any pairs left after the climb). -/
def parseExprF : Nat → List Pair → Except ParseFailure Expr
  | 0, _ => .error .fuelExhausted
  | f + 1, ps =>
    match prattExprF f ps 0 with
    | .ok (e, _) => .ok e
    | .error err => .error err

/-- Pest climber, `expr` step: resolve one primary (with any prefix
operators), then fold pending binary operators of sufficient precedence. -/
def prattExprF : Nat → List Pair → Nat → Except ParseFailure (Expr × List Pair)
  | 0, _, _ => .error .fuelExhausted
  | f + 1, ps, minPrec => do
    let lr ← prattPrimaryF f ps
    prattLoopF f lr.1 lr.2 minPrec

/-- Pest climber, `primary` step: consume one pair.  The registered
unary-minus rule recurses at its own precedence and applies the `map_prefix`
closure; an unregistered rule goes to the `map_primary` closure; a registered
binary rule here is pest's "Expected prefix or primary expression" panic, and
an empty sequence is pest's "expects non-empty Pairs" expect. -/
def prattPrimaryF : Nat → List Pair → Except ParseFailure (Expr × List Pair)
  | 0, _ => .error .fuelExhausted
  | _ + 1, [] => .error .emptyPairs
  | f + 1, p :: rest =>
    match PRATT_PARSER p.rule with
    | .preRule prec => do
      let rr ← prattExprF f rest prec
      match p.rule with
      | .unary_minus => pure (.UnaryMinus rr.1, rr.2)
      | r => .error (.expectedPreOperation r)
    | .primaryRule => do
      let e ← mapPrimaryF f p
      pure (e, rest)
    | .binRule _ _ => .error (.expectedPrimary p.rule)

/-- Pest climber, operator-folding loop: while the next pair is a registered
binary rule whose precedence reaches the current minimum, consume it, climb
its right operand (left-associative operators raise the child minimum to
`prec + 1`, right-associative keep it at `prec`), and fold a `BinOp` with the
`map_infix` closure's operator.  A lower-precedence or unregistered pair stops
the fold and stays unconsumed. -/
def prattLoopF : Nat → Expr → List Pair → Nat → Except ParseFailure (Expr × List Pair)
  | 0, _, _, _ => .error .fuelExhausted
  | _ + 1, lhs, [], _ => pure (lhs, [])
  | f + 1, lhs, p :: rest, minPrec =>
    match PRATT_PARSER p.rule with
    | .binRule assoc prec =>
      if minPrec ≤ prec then do
        let op ← mapBinRule p.rule
        let childPrec :=
          match assoc with
          | .left => prec + 1
          | .right => prec
        let rr ← prattExprF f rest childPrec
        prattLoopF f (.BinOp lhs op rr.1) rr.2 minPrec
      else pure (lhs, p :: rest)
    | _ => pure (lhs, p :: rest)

/-- The `map_primary` closure of `parse_expr`: a `number` pair parses its text
(the `unwrap` panic becomes `floatFailure`), an `expr` pair recurses on its
children, a `function` pair goes to `parse_function`, and any other rule is
the `unreachable!("Expr::parse expected atom, ...")` arm. -/
def mapPrimaryF : Nat → Pair → Except ParseFailure Expr
  | 0, _ => .error .fuelExhausted
  | f + 1, p =>
    match p.rule with
    | .number =>
      match parseFloat p.text with
      | some v => .ok (.Number v)
      | none => .error (.floatFailure p.text)
    | .expr => parseExprF f p.inner
    | .function => parseFunctionF f p.inner
    | r => .error (.expectedAtom r)

/-- Embedding of `parse_function` from `parser.rs`: fold over the pairs with
the name initialised to `"parse_failure_function"` and an empty argument
vector. -/
def parseFunctionF : Nat → List Pair → Except ParseFailure Expr
  | 0, _ => .error .fuelExhausted
  | f + 1, ps => parseFunctionGoF f "parse_failure_function" [] ps

/-- Loop body of `parse_function`: a `function_name` pair replaces the name
with its text, a `function_args` pair parses each argument and appends the
results, any other rule is the `panic!("Unknown")` arm; at the end the
accumulated name and arguments form the `Function` node. -/
def parseFunctionGoF : Nat → String → List Expr → List Pair → Except ParseFailure Expr
  | 0, _, _, _ => .error .fuelExhausted
  | _ + 1, name, args, [] => .ok (.Function name args)
  | f + 1, name, args, p :: rest =>
    match p.rule with
    | .function_name => parseFunctionGoF f p.text args rest
    | .function_args => do
      let newArgs ← parseArgsF f p.inner
      parseFunctionGoF f name (args ++ newArgs) rest
    | r => .error (.unknownFunctionPair r)

/-- Argument loop of `parse_function`: each child of a `function_args` pair is
parsed by `parse_expr` on its own children; results keep source order. -/
def parseArgsF : Nat → List Pair → Except ParseFailure (List Expr)
  | 0, _ => .error .fuelExhausted
  | _ + 1, [] => .ok []
  | f + 1, a :: rest => do
    let e ← parseExprF f a.inner
    let es ← parseArgsF f rest
    pure (e :: es)

end

/-- Fuel large enough for the whole climb over `ps` (the totality theorem
shows `3 * Pair.sizeList ps + 3` already suffices for grammar-shaped trees). -/
def exprFuel (ps : List Pair) : Nat := 4 * Pair.sizeList ps + 4

/-- `parse_expr` of `parser.rs` at its standard fuel. -/
def parse_expr (ps : List Pair) : Except ParseFailure Expr :=
  parseExprF (exprFuel ps) ps

/-- `parse_function` of `parser.rs` at its standard fuel. -/
def parse_function (ps : List Pair) : Except ParseFailure Expr :=
  parseFunctionF (exprFuel ps) ps

/-! The tokenizer.  The grammar file `grammar/numeric_evaluator.pest` is not
part of `src/`, so this stage is modelled from the specification (§3, §4.1,
§6): whitespace is insignificant between tokens; numbers are digits with an
optional decimal point and fractional digits; the six binary operator symbols
and the unary-minus symbol are tagged with their own rules; grouping is
`(` expr `)` and produces an `expr` pair whose children are the inner token
sequence (the parentheses leave no node); a function call is an identifier
immediately followed by a parenthesized, comma-separated, possibly-empty
argument list, producing a `function` pair with `function_name` and
`function_args` children; the whole input is exactly one expression and must
be consumed entirely. -/

/-- Modelled from the spec: whitespace, insignificant between tokens (§6). -/
def isWsChar (c : Char) : Bool :=
  c == ' ' || c == '\t' || c == '\n' || c == '\r'

/-- Drop insignificant whitespace. -/
def skipWs (cs : List Char) : List Char := cs.dropWhile isWsChar

/-- Modelled from the spec: scan a numeric literal — digits with an optional
decimal point and fractional digits (§6).  Returns the literal text and the
remaining input; a point without following digits is not consumed. -/
def scanNumber (cs : List Char) : Option (List Char × List Char) :=
  let ds := cs.takeWhile Char.isDigit
  let rest := cs.dropWhile Char.isDigit
  if ds.isEmpty then none
  else
    match rest with
    | '.' :: more =>
      let fs := more.takeWhile Char.isDigit
      if fs.isEmpty then some (ds, rest)
      else some (ds ++ '.' :: fs, more.dropWhile Char.isDigit)
    | _ => some (ds, rest)

/-- Modelled from the spec: scan a function-name identifier (§6). -/
def scanIdent (cs : List Char) : Option (List Char × List Char) :=
  let xs := cs.takeWhile Char.isAlpha
  if xs.isEmpty then none else some (xs, cs.dropWhile Char.isAlpha)

/-- Modelled from the spec: the six binary operator symbols, each tagged with
its own rule so the parsing stage never compares strings (§4.1, §6). -/
def scanBinOp (cs : List Char) : Option (Pair × List Char) :=
  match cs with
  | '+' :: rest => some (.mk .add "+" [], rest)
  | '-' :: rest => some (.mk .subtract "-" [], rest)
  | '*' :: rest => some (.mk .multiply "*" [], rest)
  | '/' :: rest => some (.mk .divide "/" [], rest)
  | '%' :: rest => some (.mk .modulo "%" [], rest)
  | '^' :: rest => some (.mk .power "^" [], rest)
  | _ => none

mutual

/-- Modelled from the spec: an expression is a flat sequence
atom (operator atom)*, each atom being unary-minus markers followed by one
primary (§4.2); produces the child sequence of an `expr` pair. -/
def scanExprSeq : Nat → List Char → Option (List Pair × List Char)
  | 0, _ => none
  | f + 1, cs => do
    let ar ← scanAtom f cs
    scanOps f ar.1 ar.2

/-- Modelled from the spec: the operator/atom loop of an expression, with
whitespace skipped between tokens (§6). -/
def scanOps : Nat → List Pair → List Char → Option (List Pair × List Char)
  | 0, _, _ => none
  | f + 1, acc, cs =>
    match scanBinOp (skipWs cs) with
    | none => some (acc, cs)
    | some (opPair, rest) => do
      let ar ← scanAtom f rest
      scanOps f (acc ++ opPair :: ar.1) ar.2

/-- Modelled from the spec: unary-minus markers, then one primary (§4.2);
the leading `-` is an operator token, not part of a numeric literal (§4.1). -/
def scanAtom : Nat → List Char → Option (List Pair × List Char)
  | 0, _ => none
  | f + 1, cs =>
    match skipWs cs with
    | '-' :: rest => do
      let ar ← scanAtom f rest
      pure (Pair.mk .unary_minus "-" [] :: ar.1, ar.2)
    | other => do
      let pr ← scanPrimary f other
      pure ([pr.1], pr.2)

/-- Modelled from the spec: a primary is a parenthesized sub-expression (an
`expr` pair holding the inner sequence, the parentheses discarded), a numeric
literal, or a function call — an identifier immediately followed by a
parenthesized, comma-separated, possibly-empty argument list (§6). -/
def scanPrimary : Nat → List Char → Option (Pair × List Char)
  | 0, _ => none
  | f + 1, cs =>
    match cs with
    | '(' :: rest => do
      let sr ← scanExprSeq f rest
      match skipWs sr.2 with
      | ')' :: rest2 => pure (Pair.mk .expr "" sr.1, rest2)
      | _ => none
    | c :: _ =>
      if c.isDigit then do
        let nr ← scanNumber cs
        pure (Pair.mk .number (String.mk nr.1) [], nr.2)
      else if c.isAlpha then do
        let ir ← scanIdent cs
        match ir.2 with
        | '(' :: rest2 => do
          let ar ← scanArgs f rest2
          match skipWs ar.2 with
          | ')' :: rest3 =>
            pure (Pair.mk .function ""
              [Pair.mk .function_name (String.mk ir.1) [],
               Pair.mk .function_args "" ar.1], rest3)
          | _ => none
        | _ => none
      else none
    | [] => none

/-- Modelled from the spec: zero or more comma-separated argument
expressions, each wrapped as an `expr` pair; empty lists are legal (§6). -/
def scanArgs : Nat → List Char → Option (List Pair × List Char)
  | 0, _ => none
  | f + 1, cs =>
    match scanExprSeq f cs with
    | none => some ([], cs)
    | some (seqPairs, rest) => scanArgsMore f [Pair.mk .expr "" seqPairs] rest

/-- Modelled from the spec: the comma loop of an argument list. -/
def scanArgsMore : Nat → List Pair → List Char → Option (List Pair × List Char)
  | 0, _, _ => none
  | f + 1, acc, cs =>
    match skipWs cs with
    | ',' :: rest => do
      let sr ← scanExprSeq f rest
      scanArgsMore f (acc ++ [Pair.mk .expr "" sr.1]) sr.2
    | _ => some (acc, cs)

end

/-- Modelled from the spec: the grammar entry point
(`CalculatorParser::parse` with `Rule::equation`): the whole input is one
expression with insignificant surrounding whitespace and must be consumed
entirely — trailing garbage is a rejection (§4.1, §6); success yields the
`equation` pair containing exactly one `expr` pair (§3); failure is the
grammar's structured rejection. -/
def tokenize (s : String) : Except ParseFailure Pair :=
  let cs := s.data
  match scanExprSeq (4 * cs.length + 4) cs with
  | some (seqPairs, rest) =>
    if (skipWs rest).isEmpty then
      .ok (Pair.mk .equation s [Pair.mk .expr "" seqPairs])
    else .error .grammarReject
  | none => .error .grammarReject

/-- Embedding of `parse` from `parser.rs`: run the grammar on the input (the
`unwrap` of its `Err` is the returned `grammarReject`), take the first pair
(the `equation`), and parse its children with `parse_expr`. -/
def parse (expression : String) : Except ParseFailure Expr := do
  let eq ← tokenize expression
  parse_expr eq.inner

example : parse "2+5" = .ok (.BinOp (.Number (numv "2")) .Add (.Number (numv "5"))) := rfl


/-! Size lemmas and well-formedness of grammar-shaped token trees. -/

theorem Pair.sizeList_pos (ps : List Pair) : 1 ≤ Pair.sizeList ps := by
  cases ps with
  | nil => simp [Pair.sizeList]
  | cons p rest => simp only [Pair.sizeList]; omega

theorem Pair.two_le_size (p : Pair) : 2 ≤ p.size := by
  cases p with
  | mk r t i =>
    have h := Pair.sizeList_pos i
    simp [Pair.size]
    omega

/-- Rules the `PRATT_PARSER` table registers as binary operators. -/
def isBinRule (r : Rule) : Bool :=
  match PRATT_PARSER r with
  | .binRule _ _ => true
  | _ => false

mutual

/-- Token-tree shape the grammar guarantees for the child sequence of an
`expr` node (spec §3, §4.2): unary-minus markers and one primary, optionally
followed by a binary operator pair and another such sequence. -/
inductive WfSeq : List Pair → Prop where
  | um (t : String) (i : List Pair) (rest : List Pair) :
      WfSeq rest → WfSeq (Pair.mk .unary_minus t i :: rest)
  | prim (p : Pair) (rest : List Pair) :
      WfPrimary p → WfTail rest → WfSeq (p :: rest)

/-- Grammar-guaranteed shape of a primary pair: a number with parseable text,
a grouped sub-expression, or a function call. -/
inductive WfPrimary : Pair → Prop where
  | num (t : String) (i : List Pair) :
      (parseFloat t).isSome = true → WfPrimary (Pair.mk .number t i)
  | group (t : String) (i : List Pair) :
      WfSeq i → WfPrimary (Pair.mk .expr t i)
  | fncall (t : String) (i : List Pair) :
      WfFunChildren i → WfPrimary (Pair.mk .function t i)

/-- Shape of what may follow a primary: nothing, or a registered binary
operator pair and a further well-formed sequence. -/
inductive WfTail : List Pair → Prop where
  | nil : WfTail []
  | cons (p : Pair) (rest : List Pair) :
      isBinRule p.rule = true → WfSeq rest → WfTail (p :: rest)

/-- Grammar-guaranteed children of a `function` pair: `function_name` and
`function_args` pairs only. -/
inductive WfFunChildren : List Pair → Prop where
  | nil : WfFunChildren []
  | name (t : String) (i : List Pair) (rest : List Pair) :
      WfFunChildren rest → WfFunChildren (Pair.mk .function_name t i :: rest)
  | args (t : String) (i : List Pair) (rest : List Pair) :
      WfArgs i → WfFunChildren rest → WfFunChildren (Pair.mk .function_args t i :: rest)

/-- Grammar-guaranteed children of a `function_args` pair: `expr` pairs each
holding a well-formed sequence. -/
inductive WfArgs : List Pair → Prop where
  | nil : WfArgs []
  | cons (t : String) (i : List Pair) (rest : List Pair) :
      WfSeq i → WfArgs rest → WfArgs (Pair.mk .expr t i :: rest)

end

theorem WfPrimary.primaryRule {p : Pair} (h : WfPrimary p) :
    PRATT_PARSER p.rule = .primaryRule := by
  cases h <;> rfl

theorem mapBinRule_ok_of_isBinRule {r : Rule} (h : isBinRule r = true) :
    ∃ op, mapBinRule r = .ok op := by
  cases r <;> first
    | exact ⟨_, rfl⟩
    | simp [isBinRule, PRATT_PARSER] at h

theorem binRule_of_isBinRule {r : Rule} (h : isBinRule r = true) :
    ∃ a p, PRATT_PARSER r = .binRule a p := by
  cases r <;> first
    | exact ⟨_, _, rfl⟩
    | simp [isBinRule, PRATT_PARSER] at h

theorem ok_bind {α β : Type} (a : α) (k : α → Except ParseFailure β) :
    (Except.ok a : Except ParseFailure α) >>= k = k a := rfl

/-- Totality of the climbing stage on grammar-shaped token trees, by strong
induction on the size: with fuel at least linear in the size, every stage
returns `.ok`, and the pairs left over by a sub-climb again start at a binary
operator (or are exhausted) and are strictly fewer. -/
theorem totalAux : ∀ N : Nat,
    (∀ p, Pair.size p ≤ N → WfPrimary p → ∀ f, 3 * Pair.size p ≤ f →
      ∃ e, mapPrimaryF f p = .ok e)
    ∧ (∀ ps, Pair.sizeList ps ≤ N → WfSeq ps → ∀ f, 3 * Pair.sizeList ps ≤ f →
      ∃ e rest, prattPrimaryF f ps = .ok (e, rest) ∧ WfTail rest ∧
        Pair.sizeList rest < Pair.sizeList ps)
    ∧ (∀ ps, Pair.sizeList ps ≤ N → WfTail ps → ∀ lhs mp f, 3 * Pair.sizeList ps + 1 ≤ f →
      ∃ e rest, prattLoopF f lhs ps mp = .ok (e, rest) ∧ WfTail rest ∧
        Pair.sizeList rest ≤ Pair.sizeList ps)
    ∧ (∀ ps, Pair.sizeList ps ≤ N → WfSeq ps → ∀ mp f, 3 * Pair.sizeList ps + 1 ≤ f →
      ∃ e rest, prattExprF f ps mp = .ok (e, rest) ∧ WfTail rest ∧
        Pair.sizeList rest < Pair.sizeList ps)
    ∧ (∀ ps, Pair.sizeList ps ≤ N → WfSeq ps → ∀ f, 3 * Pair.sizeList ps + 2 ≤ f →
      ∃ e, parseExprF f ps = .ok e)
    ∧ (∀ ps, Pair.sizeList ps ≤ N → WfArgs ps → ∀ f, 3 * Pair.sizeList ps + 2 ≤ f →
      ∃ es, parseArgsF f ps = .ok es)
    ∧ (∀ ps, Pair.sizeList ps ≤ N → WfFunChildren ps → ∀ name args f,
        3 * Pair.sizeList ps + 1 ≤ f →
      ∃ e, parseFunctionGoF f name args ps = .ok e) := by
  intro N
  induction N using Nat.strong_induction_on with
  | _ N IH =>
  -- mapPrimaryF
  have HM : ∀ p, Pair.size p ≤ N → WfPrimary p → ∀ f, 3 * Pair.size p ≤ f →
      ∃ e, mapPrimaryF f p = .ok e := by
    intro p hpN hwf f hf
    have h2 := Pair.two_le_size p
    obtain ⟨f1, rfl⟩ : ∃ f1, f = f1 + 1 := ⟨f - 1, by omega⟩
    cases hwf with
    | num t i hnum =>
      obtain ⟨v, hv⟩ := Option.isSome_iff_exists.mp hnum
      exact ⟨.Number v, by simp [mapPrimaryF, Pair.rule, Pair.text, hv]⟩
    | group t i hseq =>
      have hsz : Pair.sizeList i < Pair.size (Pair.mk .expr t i) := by
        simp [Pair.size]
      have hiN : Pair.sizeList i < N := by omega
      obtain ⟨e, he⟩ := ((IH _ hiN).2.2.2.2.1) i le_rfl hseq f1 (by
        have : Pair.size (Pair.mk Rule.expr t i) = 1 + Pair.sizeList i := rfl
        omega)
      exact ⟨e, by simp [mapPrimaryF, Pair.rule, Pair.inner, he]⟩
    | fncall t i hfun =>
      have hsz : Pair.size (Pair.mk .function t i) = 1 + Pair.sizeList i := rfl
      have hiN : Pair.sizeList i < N := by omega
      obtain ⟨f2, rfl⟩ : ∃ f2, f1 = f2 + 1 := ⟨f1 - 1, by
        have := Pair.sizeList_pos i; omega⟩
      obtain ⟨e, he⟩ := ((IH _ hiN).2.2.2.2.2.2) i le_rfl hfun
        "parse_failure_function" [] f2 (by omega)
      exact ⟨e, by simp [mapPrimaryF, Pair.rule, Pair.inner, parseFunctionF, he]⟩
  -- prattPrimaryF
  have HP : ∀ ps, Pair.sizeList ps ≤ N → WfSeq ps → ∀ f, 3 * Pair.sizeList ps ≤ f →
      ∃ e rest, prattPrimaryF f ps = .ok (e, rest) ∧ WfTail rest ∧
        Pair.sizeList rest < Pair.sizeList ps := by
    intro ps hpsN hwf f hf
    have h1 := Pair.sizeList_pos ps
    obtain ⟨f1, rfl⟩ : ∃ f1, f = f1 + 1 := ⟨f - 1, by omega⟩
    cases hwf with
    | um t i rest hrest =>
      have hsz : Pair.sizeList (Pair.mk .unary_minus t i :: rest)
          = 1 + (1 + Pair.sizeList i) + Pair.sizeList rest := rfl
      have hi := Pair.sizeList_pos i
      have hrestN : Pair.sizeList rest < N := by omega
      obtain ⟨e, rest2, he, htail, hlt⟩ := ((IH _ hrestN).2.2.2.1) rest le_rfl hrest 40 f1
        (by omega)
      refine ⟨.UnaryMinus e, rest2, ?_, htail, by omega⟩
      simp [prattPrimaryF, Pair.rule, PRATT_PARSER, he, ok_bind]
    | prim p rest hprim htail =>
      have hsz : Pair.sizeList (p :: rest) = 1 + Pair.size p + Pair.sizeList rest := rfl
      have hrest1 := Pair.sizeList_pos rest
      obtain ⟨e, he⟩ := HM p (by omega) hprim f1 (by omega)
      refine ⟨e, rest, ?_, htail, by have := Pair.two_le_size p; omega⟩
      simp [prattPrimaryF, hprim.primaryRule, he, ok_bind]
  -- prattLoopF
  have HL : ∀ ps, Pair.sizeList ps ≤ N → WfTail ps → ∀ lhs mp f,
      3 * Pair.sizeList ps + 1 ≤ f →
      ∃ e rest, prattLoopF f lhs ps mp = .ok (e, rest) ∧ WfTail rest ∧
        Pair.sizeList rest ≤ Pair.sizeList ps := by
    intro ps hpsN hwf lhs mp f hf
    obtain ⟨f1, rfl⟩ : ∃ f1, f = f1 + 1 := ⟨f - 1, by omega⟩
    cases hwf with
    | nil => exact ⟨lhs, [], rfl, .nil, le_rfl⟩
    | cons p rest hbin hrest =>
      obtain ⟨a, prec, hcls⟩ := binRule_of_isBinRule hbin
      obtain ⟨op, hop⟩ := mapBinRule_ok_of_isBinRule hbin
      have hsz : Pair.sizeList (p :: rest) = 1 + Pair.size p + Pair.sizeList rest := rfl
      have h2 := Pair.two_le_size p
      by_cases hmp : mp ≤ prec
      · have hrestN : Pair.sizeList rest < N := by omega
        cases a with
        | left =>
          obtain ⟨rhs, rest2, hrhs, htail2, hlt2⟩ := ((IH _ hrestN).2.2.2.1) rest le_rfl hrest
            (prec + 1) f1 (by omega)
          have hrest2N : Pair.sizeList rest2 < N := by omega
          obtain ⟨e, rest3, he, htail3, hle3⟩ := ((IH _ hrest2N).2.2.1) rest2 le_rfl htail2
            (.BinOp lhs op rhs) mp f1 (by omega)
          refine ⟨e, rest3, ?_, htail3, by omega⟩
          simp [prattLoopF, hcls, hmp, hop, hrhs, he, ok_bind]
        | right =>
          obtain ⟨rhs, rest2, hrhs, htail2, hlt2⟩ := ((IH _ hrestN).2.2.2.1) rest le_rfl hrest
            prec f1 (by omega)
          have hrest2N : Pair.sizeList rest2 < N := by omega
          obtain ⟨e, rest3, he, htail3, hle3⟩ := ((IH _ hrest2N).2.2.1) rest2 le_rfl htail2
            (.BinOp lhs op rhs) mp f1 (by omega)
          refine ⟨e, rest3, ?_, htail3, by omega⟩
          simp [prattLoopF, hcls, hmp, hop, hrhs, he, ok_bind]
      · refine ⟨lhs, p :: rest, ?_, .cons p rest hbin hrest, le_rfl⟩
        simp [prattLoopF, hcls, hmp, pure, Except.pure]
  -- prattExprF
  have HE : ∀ ps, Pair.sizeList ps ≤ N → WfSeq ps → ∀ mp f, 3 * Pair.sizeList ps + 1 ≤ f →
      ∃ e rest, prattExprF f ps mp = .ok (e, rest) ∧ WfTail rest ∧
        Pair.sizeList rest < Pair.sizeList ps := by
    intro ps hpsN hwf mp f hf
    obtain ⟨f1, rfl⟩ : ∃ f1, f = f1 + 1 := ⟨f - 1, by omega⟩
    obtain ⟨e, rest, he, htail, hlt⟩ := HP ps hpsN hwf f1 (by omega)
    have hrestN : Pair.sizeList rest < N := by omega
    obtain ⟨e2, rest2, he2, htail2, hle2⟩ := ((IH _ hrestN).2.2.1) rest le_rfl htail e mp f1
      (by omega)
    refine ⟨e2, rest2, ?_, htail2, by omega⟩
    simp [prattExprF, he, he2, ok_bind]
  -- parseExprF
  have HPE : ∀ ps, Pair.sizeList ps ≤ N → WfSeq ps → ∀ f, 3 * Pair.sizeList ps + 2 ≤ f →
      ∃ e, parseExprF f ps = .ok e := by
    intro ps hpsN hwf f hf
    obtain ⟨f1, rfl⟩ : ∃ f1, f = f1 + 1 := ⟨f - 1, by omega⟩
    obtain ⟨e, rest, he, -, -⟩ := HE ps hpsN hwf 0 f1 (by omega)
    exact ⟨e, by simp [parseExprF, he]⟩
  -- parseArgsF
  have HA : ∀ ps, Pair.sizeList ps ≤ N → WfArgs ps → ∀ f, 3 * Pair.sizeList ps + 2 ≤ f →
      ∃ es, parseArgsF f ps = .ok es := by
    intro ps hpsN hwf f hf
    obtain ⟨f1, rfl⟩ : ∃ f1, f = f1 + 1 := ⟨f - 1, by omega⟩
    cases hwf with
    | nil => exact ⟨[], rfl⟩
    | cons t i rest hseq hrest =>
      have hsz : Pair.sizeList (Pair.mk .expr t i :: rest)
          = 1 + (1 + Pair.sizeList i) + Pair.sizeList rest := rfl
      have hi := Pair.sizeList_pos i
      have hr := Pair.sizeList_pos rest
      have hiN : Pair.sizeList i < N := by omega
      have hrestN : Pair.sizeList rest < N := by omega
      obtain ⟨e, he⟩ := ((IH _ hiN).2.2.2.2.1) i le_rfl hseq f1 (by omega)
      obtain ⟨es, hes⟩ := ((IH _ hrestN).2.2.2.2.2.1) rest le_rfl hrest f1 (by omega)
      exact ⟨e :: es, by simp [parseArgsF, Pair.inner, he, hes, ok_bind]⟩
  -- parseFunctionGoF
  have HG : ∀ ps, Pair.sizeList ps ≤ N → WfFunChildren ps → ∀ name args f,
      3 * Pair.sizeList ps + 1 ≤ f →
      ∃ e, parseFunctionGoF f name args ps = .ok e := by
    intro ps hpsN hwf name args f hf
    obtain ⟨f1, rfl⟩ : ∃ f1, f = f1 + 1 := ⟨f - 1, by omega⟩
    cases hwf with
    | nil => exact ⟨.Function name args, rfl⟩
    | name t i rest hrest =>
      have hsz : Pair.sizeList (Pair.mk .function_name t i :: rest)
          = 1 + (1 + Pair.sizeList i) + Pair.sizeList rest := rfl
      have hi := Pair.sizeList_pos i
      have hrestN : Pair.sizeList rest < N := by omega
      obtain ⟨e, he⟩ := ((IH _ hrestN).2.2.2.2.2.2) rest le_rfl hrest t args f1 (by omega)
      exact ⟨e, by simp [parseFunctionGoF, Pair.rule, Pair.text, he]⟩
    | args t i rest hargs hrest =>
      have hsz : Pair.sizeList (Pair.mk .function_args t i :: rest)
          = 1 + (1 + Pair.sizeList i) + Pair.sizeList rest := rfl
      have hi := Pair.sizeList_pos i
      have hr := Pair.sizeList_pos rest
      have hiN : Pair.sizeList i < N := by omega
      have hrestN : Pair.sizeList rest < N := by omega
      obtain ⟨es, hes⟩ := ((IH _ hiN).2.2.2.2.2.1) i le_rfl hargs f1 (by omega)
      obtain ⟨e, he⟩ := ((IH _ hrestN).2.2.2.2.2.2) rest le_rfl hrest name (args ++ es) f1
        (by omega)
      exact ⟨e, by simp [parseFunctionGoF, Pair.rule, Pair.inner, hes, he, ok_bind]⟩
  exact ⟨HM, HP, HL, HE, HPE, HA, HG⟩

/-- Totality at the entry fuel: a grammar-shaped child sequence always
climbs to an AST; the fuel chosen by `parse_expr` is never exhausted. -/
theorem parse_expr_total (ps : List Pair) (h : WfSeq ps) : ∃ e, parse_expr ps = .ok e := by
  have hc := (totalAux (Pair.sizeList ps)).2.2.2.2.1 ps le_rfl h (exprFuel ps)
  exact hc (by simp [exprFuel]; omega)

theorem error_bind {α β : Type} (err : ParseFailure) (k : α → Except ParseFailure β) :
    (Except.error err : Except ParseFailure α) >>= k = .error err := rfl

theorem preRule_eq_um {r : Rule} {prec : Nat} (h : PRATT_PARSER r = .preRule prec) :
    r = .unary_minus := by
  cases r <;> simp [PRATT_PARSER] at h ⊢

theorem mapBinRule_ok_of_binRule {r : Rule} {a : Assoc} {prec : Nat}
    (h : PRATT_PARSER r = .binRule a prec) : ∃ op, mapBinRule r = .ok op := by
  cases r <;> first
    | exact ⟨_, rfl⟩
    | simp [PRATT_PARSER] at h

/-- The pairs left unconsumed by a successful climb are a final segment of
the input: their size never exceeds the input's (strictly less once a primary
has been consumed).  Holds for every input, by induction on the fuel. -/
theorem restBound : ∀ f : Nat,
    (∀ ps e rest, prattPrimaryF f ps = .ok (e, rest) →
      Pair.sizeList rest < Pair.sizeList ps)
    ∧ (∀ lhs ps mp e rest, prattLoopF f lhs ps mp = .ok (e, rest) →
      Pair.sizeList rest ≤ Pair.sizeList ps)
    ∧ (∀ ps mp e rest, prattExprF f ps mp = .ok (e, rest) →
      Pair.sizeList rest < Pair.sizeList ps) := by
  intro f
  induction f with
  | zero =>
    refine ⟨fun ps e rest h => ?_, fun lhs ps mp e rest h => ?_, fun ps mp e rest h => ?_⟩ <;>
      simp [prattPrimaryF, prattLoopF, prattExprF] at h
  | succ f1 IH =>
    obtain ⟨IHP, IHL, IHE⟩ := IH
    have HP : ∀ ps e rest, prattPrimaryF (f1 + 1) ps = .ok (e, rest) →
        Pair.sizeList rest < Pair.sizeList ps := by
      intro ps e rest h
      cases ps with
      | nil => simp [prattPrimaryF] at h
      | cons p tail =>
        have hsz : Pair.sizeList (p :: tail) = 1 + Pair.size p + Pair.sizeList tail := rfl
        have h2 := Pair.two_le_size p
        cases hcls : PRATT_PARSER p.rule with
        | preRule prec =>
          simp only [prattPrimaryF, hcls] at h
          cases hsub : prattExprF f1 tail prec with
          | error err => rw [hsub, error_bind] at h; simp at h
          | ok rr =>
            obtain ⟨rhs, rest2⟩ := rr
            rw [hsub, ok_bind, preRule_eq_um hcls] at h
            simp only [pure, Except.pure, Except.ok.injEq, Prod.mk.injEq] at h
            obtain ⟨-, hrest⟩ := h
            rw [← hrest]
            have := IHE tail prec rhs rest2 hsub
            omega
        | primaryRule =>
          simp only [prattPrimaryF, hcls] at h
          cases hsub : mapPrimaryF f1 p with
          | error err => rw [hsub, error_bind] at h; simp at h
          | ok e2 =>
            rw [hsub, ok_bind] at h
            simp only [pure, Except.pure, Except.ok.injEq, Prod.mk.injEq] at h
            obtain ⟨-, hrest⟩ := h
            subst hrest
            omega
        | binRule a prec => simp [prattPrimaryF, hcls] at h
    have HL : ∀ lhs ps mp e rest, prattLoopF (f1 + 1) lhs ps mp = .ok (e, rest) →
        Pair.sizeList rest ≤ Pair.sizeList ps := by
      intro lhs ps mp e rest h
      cases ps with
      | nil =>
        simp only [prattLoopF, pure, Except.pure, Except.ok.injEq, Prod.mk.injEq] at h
        obtain ⟨-, hrest⟩ := h
        subst hrest
        exact le_rfl
      | cons p tail =>
        have hsz : Pair.sizeList (p :: tail) = 1 + Pair.size p + Pair.sizeList tail := rfl
        have h2 := Pair.two_le_size p
        cases hcls : PRATT_PARSER p.rule with
        | binRule a prec =>
          by_cases hmp : mp ≤ prec
          · simp only [prattLoopF, hcls, if_pos hmp] at h
            cases hop : mapBinRule p.rule with
            | error err => rw [hop, error_bind] at h; simp at h
            | ok op =>
              rw [hop, ok_bind] at h
              cases a with
              | left =>
                cases hsub : prattExprF f1 tail (prec + 1) with
                | error err => rw [hsub, error_bind] at h; simp at h
                | ok rr =>
                  obtain ⟨rhs, rest2⟩ := rr
                  rw [hsub, ok_bind] at h
                  have hb1 := IHE tail (prec + 1) rhs rest2 hsub
                  have hb2 := IHL (.BinOp lhs op rhs) rest2 mp e rest h
                  omega
              | right =>
                cases hsub : prattExprF f1 tail prec with
                | error err => rw [hsub, error_bind] at h; simp at h
                | ok rr =>
                  obtain ⟨rhs, rest2⟩ := rr
                  rw [hsub, ok_bind] at h
                  have hb1 := IHE tail prec rhs rest2 hsub
                  have hb2 := IHL (.BinOp lhs op rhs) rest2 mp e rest h
                  omega
          · simp only [prattLoopF, hcls, if_neg hmp, pure, Except.pure, Except.ok.injEq,
              Prod.mk.injEq] at h
            obtain ⟨-, hrest⟩ := h
            subst hrest
            exact le_rfl
        | preRule prec =>
          simp only [prattLoopF, hcls, pure, Except.pure, Except.ok.injEq, Prod.mk.injEq] at h
          obtain ⟨-, hrest⟩ := h
          subst hrest
          exact le_rfl
        | primaryRule =>
          simp only [prattLoopF, hcls, pure, Except.pure, Except.ok.injEq, Prod.mk.injEq] at h
          obtain ⟨-, hrest⟩ := h
          subst hrest
          exact le_rfl
    have HE : ∀ ps mp e rest, prattExprF (f1 + 1) ps mp = .ok (e, rest) →
        Pair.sizeList rest < Pair.sizeList ps := by
      intro ps mp e rest h
      simp only [prattExprF] at h
      cases hsub : prattPrimaryF f1 ps with
      | error err => rw [hsub, error_bind] at h; simp at h
      | ok rr =>
        obtain ⟨e1, rest1⟩ := rr
        rw [hsub, ok_bind] at h
        have hb1 := IHP ps e1 rest1 hsub
        have hb2 := IHL e1 rest1 mp e rest h
        omega
    exact ⟨HP, HL, HE⟩

/-! No-placeholder propagation: conditions under which the fallback name
`"parse_failure_function"` of `parse_function` cannot reach a successful
result. -/

/-- Whether a child list contains a `function_name` pair (what the grammar
guarantees inside every `function` pair). -/
def hasNameChild (ps : List Pair) : Bool :=
  ps.any (fun p => p.rule == Rule.function_name)

mutual

/-- Conditions on a token-tree node under which the fallback name cannot
survive: every `function` pair has a `function_name` child, and no
`function_name` pair carries the placeholder text itself. -/
inductive PairGood : Pair → Prop where
  | mk (r : Rule) (t : String) (i : List Pair) :
      (!(r == Rule.function) || hasNameChild i) = true →
      (!(r == Rule.function_name) || !(t == "parse_failure_function")) = true →
      PairsGood i → PairGood (Pair.mk r t i)

/-- `PairGood` for every node of a list, recursively. -/
inductive PairsGood : List Pair → Prop where
  | nil : PairsGood []
  | cons (p : Pair) (rest : List Pair) :
      PairGood p → PairsGood rest → PairsGood (p :: rest)

end

mutual

/-- No `Function` node anywhere in the expression carries the fallback name
`"parse_failure_function"`. -/
def placeholderFree : Expr → Bool
  | .Number _ => true
  | .BinOp l _ r => placeholderFree l && placeholderFree r
  | .UnaryMinus e => placeholderFree e
  | .Function n args => !(n == "parse_failure_function") && placeholderFreeList args

/-- `placeholderFree` over an argument list. -/
def placeholderFreeList : List Expr → Bool
  | [] => true
  | e :: rest => placeholderFree e && placeholderFreeList rest

end

theorem placeholderFreeList_append (xs ys : List Expr) :
    placeholderFreeList (xs ++ ys) = (placeholderFreeList xs && placeholderFreeList ys) := by
  induction xs with
  | nil => simp [placeholderFreeList]
  | cons e rest ih => simp [placeholderFreeList, ih, Bool.and_assoc]

/-- Under `PairsGood`, a successful climb never contains the fallback name:
strong induction on size, mirroring the computation. -/
theorem noPlaceholderAux : ∀ N : Nat,
    (∀ p, Pair.size p ≤ N → PairGood p → ∀ f e, mapPrimaryF f p = .ok e →
      placeholderFree e = true)
    ∧ (∀ ps, Pair.sizeList ps ≤ N → PairsGood ps → ∀ f e rest,
        prattPrimaryF f ps = .ok (e, rest) →
      placeholderFree e = true ∧ PairsGood rest)
    ∧ (∀ ps, Pair.sizeList ps ≤ N → PairsGood ps → ∀ lhs mp f e rest,
        placeholderFree lhs = true → prattLoopF f lhs ps mp = .ok (e, rest) →
      placeholderFree e = true ∧ PairsGood rest)
    ∧ (∀ ps, Pair.sizeList ps ≤ N → PairsGood ps → ∀ mp f e rest,
        prattExprF f ps mp = .ok (e, rest) →
      placeholderFree e = true ∧ PairsGood rest)
    ∧ (∀ ps, Pair.sizeList ps ≤ N → PairsGood ps → ∀ f e, parseExprF f ps = .ok e →
      placeholderFree e = true)
    ∧ (∀ ps, Pair.sizeList ps ≤ N → PairsGood ps → ∀ f es, parseArgsF f ps = .ok es →
      placeholderFreeList es = true)
    ∧ (∀ ps, Pair.sizeList ps ≤ N → PairsGood ps → ∀ name args f e,
        (hasNameChild ps = true ∨ (name == "parse_failure_function") = false) →
        placeholderFreeList args = true → parseFunctionGoF f name args ps = .ok e →
      placeholderFree e = true) := by
  intro N
  induction N using Nat.strong_induction_on with
  | _ N IH =>
  -- mapPrimaryF
  have HM : ∀ p, Pair.size p ≤ N → PairGood p → ∀ f e, mapPrimaryF f p = .ok e →
      placeholderFree e = true := by
    intro p hpN hgood f e h
    cases hgood with
    | mk r t i hfn hfname hinner =>
      cases f with
      | zero => simp [mapPrimaryF] at h
      | succ f1 =>
        have hsz : Pair.size (Pair.mk r t i) = 1 + Pair.sizeList i := rfl
        have hi := Pair.sizeList_pos i
        have hiN : Pair.sizeList i < N := by omega
        cases r with
        | number =>
          simp only [mapPrimaryF, Pair.rule, Pair.text] at h
          cases hpf : parseFloat t with
          | none => rw [hpf] at h; simp at h
          | some v =>
            rw [hpf] at h
            simp only [Except.ok.injEq] at h
            rw [← h]
            rfl
        | expr =>
          simp only [mapPrimaryF, Pair.rule, Pair.inner] at h
          exact ((IH _ hiN).2.2.2.2.1) i le_rfl hinner f1 e h
        | function =>
          simp only [mapPrimaryF, Pair.rule, Pair.inner] at h
          cases f1 with
          | zero => simp [parseFunctionF] at h
          | succ f2 =>
            simp only [parseFunctionF] at h
            have hname : hasNameChild i = true := by simpa using hfn
            exact ((IH _ hiN).2.2.2.2.2.2) i le_rfl hinner "parse_failure_function" [] f2 e
              (Or.inl hname) rfl h
        | add => simp [mapPrimaryF, Pair.rule] at h
        | subtract => simp [mapPrimaryF, Pair.rule] at h
        | multiply => simp [mapPrimaryF, Pair.rule] at h
        | divide => simp [mapPrimaryF, Pair.rule] at h
        | modulo => simp [mapPrimaryF, Pair.rule] at h
        | power => simp [mapPrimaryF, Pair.rule] at h
        | unary_minus => simp [mapPrimaryF, Pair.rule] at h
        | function_name => simp [mapPrimaryF, Pair.rule] at h
        | function_args => simp [mapPrimaryF, Pair.rule] at h
        | equation => simp [mapPrimaryF, Pair.rule] at h
  -- prattPrimaryF
  have HP : ∀ ps, Pair.sizeList ps ≤ N → PairsGood ps → ∀ f e rest,
      prattPrimaryF f ps = .ok (e, rest) →
      placeholderFree e = true ∧ PairsGood rest := by
    intro ps hpsN hgood f e rest h
    cases f with
    | zero => simp [prattPrimaryF] at h
    | succ f1 =>
      cases hgood with
      | nil => simp [prattPrimaryF] at h
      | cons p tail hp htail =>
        have hsz : Pair.sizeList (p :: tail) = 1 + Pair.size p + Pair.sizeList tail := rfl
        have h2 := Pair.two_le_size p
        have htailN : Pair.sizeList tail < N := by omega
        cases hcls : PRATT_PARSER p.rule with
        | preRule prec =>
          simp only [prattPrimaryF, hcls] at h
          cases hsub : prattExprF f1 tail prec with
          | error err => rw [hsub, error_bind] at h; simp at h
          | ok rr =>
            obtain ⟨rhs, rest2⟩ := rr
            rw [hsub, ok_bind] at h
            have hum := preRule_eq_um hcls
            rw [hum] at h
            simp only [pure, Except.pure, Except.ok.injEq, Prod.mk.injEq] at h
            obtain ⟨he, hrest⟩ := h
            obtain ⟨hfree, hgood2⟩ := ((IH _ htailN).2.2.2.1) tail le_rfl htail prec f1 rhs
              rest2 hsub
            subst hrest
            rw [← he]
            exact ⟨hfree, hgood2⟩
        | primaryRule =>
          simp only [prattPrimaryF, hcls] at h
          cases hsub : mapPrimaryF f1 p with
          | error err => rw [hsub, error_bind] at h; simp at h
          | ok e2 =>
            rw [hsub, ok_bind] at h
            simp only [pure, Except.pure, Except.ok.injEq, Prod.mk.injEq] at h
            obtain ⟨he, hrest⟩ := h
            subst hrest
            rw [← he]
            exact ⟨HM p (by omega) hp f1 e2 hsub, htail⟩
        | binRule a prec =>
          simp [prattPrimaryF, hcls] at h
  -- prattLoopF
  have HL : ∀ ps, Pair.sizeList ps ≤ N → PairsGood ps → ∀ lhs mp f e rest,
      placeholderFree lhs = true → prattLoopF f lhs ps mp = .ok (e, rest) →
      placeholderFree e = true ∧ PairsGood rest := by
    intro ps hpsN hgood lhs mp f e rest hlhs h
    cases f with
    | zero => simp [prattLoopF] at h
    | succ f1 =>
      cases hgood with
      | nil =>
        simp only [prattLoopF, pure, Except.pure, Except.ok.injEq, Prod.mk.injEq] at h
        obtain ⟨he, hrest⟩ := h
        subst hrest
        rw [← he]
        exact ⟨hlhs, .nil⟩
      | cons p tail hp htail =>
        have hsz : Pair.sizeList (p :: tail) = 1 + Pair.size p + Pair.sizeList tail := rfl
        have h2 := Pair.two_le_size p
        have htailN : Pair.sizeList tail < N := by omega
        cases hcls : PRATT_PARSER p.rule with
        | binRule a prec =>
          by_cases hmp : mp ≤ prec
          · simp only [prattLoopF, hcls, if_pos hmp] at h
            obtain ⟨op, hop⟩ := mapBinRule_ok_of_binRule hcls
            rw [hop, ok_bind] at h
            cases a with
            | left =>
              cases hsub : prattExprF f1 tail (prec + 1) with
              | error err => rw [hsub, error_bind] at h; simp at h
              | ok rr =>
                obtain ⟨rhs, rest2⟩ := rr
                rw [hsub, ok_bind] at h
                obtain ⟨hfree2, hgood2⟩ := ((IH _ htailN).2.2.2.1) tail le_rfl htail
                  (prec + 1) f1 rhs rest2 hsub
                have hrest2N : Pair.sizeList rest2 < N := by
                  have := (restBound f1).2.2 tail (prec + 1) rhs rest2 hsub
                  omega
                exact ((IH _ hrest2N).2.2.1) rest2 le_rfl hgood2 (.BinOp lhs op rhs) mp f1 e
                  rest (by simp [placeholderFree, hlhs, hfree2]) h
            | right =>
              cases hsub : prattExprF f1 tail prec with
              | error err => rw [hsub, error_bind] at h; simp at h
              | ok rr =>
                obtain ⟨rhs, rest2⟩ := rr
                rw [hsub, ok_bind] at h
                obtain ⟨hfree2, hgood2⟩ := ((IH _ htailN).2.2.2.1) tail le_rfl htail
                  prec f1 rhs rest2 hsub
                have hrest2N : Pair.sizeList rest2 < N := by
                  have := (restBound f1).2.2 tail prec rhs rest2 hsub
                  omega
                exact ((IH _ hrest2N).2.2.1) rest2 le_rfl hgood2 (.BinOp lhs op rhs) mp f1 e
                  rest (by simp [placeholderFree, hlhs, hfree2]) h
          · simp only [prattLoopF, hcls, if_neg hmp, pure, Except.pure, Except.ok.injEq,
              Prod.mk.injEq] at h
            obtain ⟨he, hrest⟩ := h
            subst hrest
            rw [← he]
            exact ⟨hlhs, .cons p tail hp htail⟩
        | preRule prec =>
          simp only [prattLoopF, hcls, pure, Except.pure, Except.ok.injEq, Prod.mk.injEq] at h
          obtain ⟨he, hrest⟩ := h
          subst hrest
          rw [← he]
          exact ⟨hlhs, .cons p tail hp htail⟩
        | primaryRule =>
          simp only [prattLoopF, hcls, pure, Except.pure, Except.ok.injEq, Prod.mk.injEq] at h
          obtain ⟨he, hrest⟩ := h
          subst hrest
          rw [← he]
          exact ⟨hlhs, .cons p tail hp htail⟩
  -- prattExprF
  have HE : ∀ ps, Pair.sizeList ps ≤ N → PairsGood ps → ∀ mp f e rest,
      prattExprF f ps mp = .ok (e, rest) →
      placeholderFree e = true ∧ PairsGood rest := by
    intro ps hpsN hgood mp f e rest h
    cases f with
    | zero => simp [prattExprF] at h
    | succ f1 =>
      simp only [prattExprF] at h
      cases hsub : prattPrimaryF f1 ps with
      | error err => rw [hsub, error_bind] at h; simp at h
      | ok rr =>
        obtain ⟨e1, rest1⟩ := rr
        rw [hsub, ok_bind] at h
        obtain ⟨hfree1, hgood1⟩ := HP ps hpsN hgood f1 e1 rest1 hsub
        have hrest1N : Pair.sizeList rest1 ≤ N := by
          have := (restBound f1).1 ps e1 rest1 hsub
          omega
        exact HL rest1 hrest1N hgood1 e1 mp f1 e rest hfree1 h
  -- parseExprF
  have HPE : ∀ ps, Pair.sizeList ps ≤ N → PairsGood ps → ∀ f e, parseExprF f ps = .ok e →
      placeholderFree e = true := by
    intro ps hpsN hgood f e h
    cases f with
    | zero => simp [parseExprF] at h
    | succ f1 =>
      simp only [parseExprF] at h
      cases hsub : prattExprF f1 ps 0 with
      | error err => rw [hsub] at h; simp at h
      | ok rr =>
        obtain ⟨e1, rest1⟩ := rr
        rw [hsub] at h
        simp only [Except.ok.injEq] at h
        rw [← h]
        exact (HE ps hpsN hgood 0 f1 e1 rest1 hsub).1
  -- parseArgsF
  have HA : ∀ ps, Pair.sizeList ps ≤ N → PairsGood ps → ∀ f es, parseArgsF f ps = .ok es →
      placeholderFreeList es = true := by
    intro ps hpsN hgood f es h
    cases f with
    | zero => simp [parseArgsF] at h
    | succ f1 =>
      cases hgood with
      | nil =>
        simp only [parseArgsF, Except.ok.injEq] at h
        rw [← h]
        rfl
      | cons a tail ha htail =>
        have hsz : Pair.sizeList (a :: tail) = 1 + Pair.size a + Pair.sizeList tail := rfl
        have h2 := Pair.two_le_size a
        have htailN : Pair.sizeList tail < N := by omega
        simp only [parseArgsF] at h
        cases hsub : parseExprF f1 a.inner with
        | error err => rw [hsub, error_bind] at h; simp at h
        | ok e1 =>
          rw [hsub, ok_bind] at h
          cases hsub2 : parseArgsF f1 tail with
          | error err => rw [hsub2, error_bind] at h; simp at h
          | ok es1 =>
            rw [hsub2, ok_bind] at h
            simp only [pure, Except.pure, Except.ok.injEq] at h
            have hinner : PairsGood a.inner ∧ Pair.sizeList a.inner < N := by
              cases ha with
              | mk r t i hfn hfname hinner =>
                refine ⟨hinner, ?_⟩
                have : Pair.size (Pair.mk r t i) = 1 + Pair.sizeList i := rfl
                simp only [Pair.inner]
                omega
            have hfree1 := ((IH _ hinner.2).2.2.2.2.1) a.inner le_rfl hinner.1 f1 e1 hsub
            have hfrees := ((IH _ htailN).2.2.2.2.2.1) tail le_rfl htail f1 es1 hsub2
            rw [← h]
            simp [placeholderFreeList, hfree1, hfrees]
  -- parseFunctionGoF
  have HG : ∀ ps, Pair.sizeList ps ≤ N → PairsGood ps → ∀ name args f e,
      (hasNameChild ps = true ∨ (name == "parse_failure_function") = false) →
      placeholderFreeList args = true → parseFunctionGoF f name args ps = .ok e →
      placeholderFree e = true := by
    intro ps hpsN hgood name args f e hname hargs h
    cases f with
    | zero => simp [parseFunctionGoF] at h
    | succ f1 =>
      cases hgood with
      | nil =>
        simp only [parseFunctionGoF, Except.ok.injEq] at h
        rw [← h]
        have hn : (name == "parse_failure_function") = false := by
          cases hname with
          | inl hh => simp [hasNameChild] at hh
          | inr hh => exact hh
        simp [placeholderFree, hn, hargs]
      | cons p tail hp htail =>
        have hsz : Pair.sizeList (p :: tail) = 1 + Pair.size p + Pair.sizeList tail := rfl
        have h2 := Pair.two_le_size p
        have htailN : Pair.sizeList tail < N := by omega
        cases hp with
        | mk r t i hfn hfname hinner =>
          cases r with
          | function_name =>
            simp only [parseFunctionGoF, Pair.rule, Pair.text] at h
            have ht : (t == "parse_failure_function") = false := by
              simp at hfname
              simp [hfname]
            exact ((IH _ htailN).2.2.2.2.2.2) tail le_rfl htail t args f1 e (Or.inr ht) hargs h
          | function_args =>
            simp only [parseFunctionGoF, Pair.rule, Pair.inner] at h
            cases hsub : parseArgsF f1 i with
            | error err => rw [hsub, error_bind] at h; simp at h
            | ok newArgs =>
              rw [hsub, ok_bind] at h
              have hiN : Pair.sizeList i < N := by
                have : Pair.size (Pair.mk Rule.function_args t i) = 1 + Pair.sizeList i := rfl
                omega
              have hnew := ((IH _ hiN).2.2.2.2.2.1) i le_rfl hinner f1 newArgs hsub
              have hname2 : hasNameChild tail = true ∨
                  (name == "parse_failure_function") = false := by
                cases hname with
                | inl hh =>
                  left
                  simpa [hasNameChild, Pair.rule] using hh
                | inr hh => exact Or.inr hh
              exact ((IH _ htailN).2.2.2.2.2.2) tail le_rfl htail name (args ++ newArgs) f1 e
                hname2 (by rw [placeholderFreeList_append, hargs, hnew]; rfl) h
          | number => simp [parseFunctionGoF, Pair.rule] at h
          | add => simp [parseFunctionGoF, Pair.rule] at h
          | subtract => simp [parseFunctionGoF, Pair.rule] at h
          | multiply => simp [parseFunctionGoF, Pair.rule] at h
          | divide => simp [parseFunctionGoF, Pair.rule] at h
          | modulo => simp [parseFunctionGoF, Pair.rule] at h
          | power => simp [parseFunctionGoF, Pair.rule] at h
          | unary_minus => simp [parseFunctionGoF, Pair.rule] at h
          | expr => simp [parseFunctionGoF, Pair.rule] at h
          | function => simp [parseFunctionGoF, Pair.rule] at h
          | equation => simp [parseFunctionGoF, Pair.rule] at h
  exact ⟨HM, HP, HL, HE, HPE, HA, HG⟩

/-! Symbolic evaluation of the climber on small operator chains, for the
associativity and precedence claims.  The primaries are arbitrary pairs the
table does not register (numbers, groups, function calls), whose mapping is
fuel-stable. -/

/-- Every registered binary operator binds more weakly than the registered
unary minus (precedence 40). -/
theorem binRule_prec_lt {r : Rule} {a : Assoc} {prec : Nat}
    (h : PRATT_PARSER r = .binRule a prec) : prec < 40 := by
  cases r <;> simp [PRATT_PARSER] at h <;> omega

/-- A chain `a ^ b ^ c` of two right-associative operators of equal
precedence folds to the right: the right operand absorbs the later operator
first. -/
theorem chainRightAssoc (a b c : Pair) (ea eb ec : Expr) (r1 r2 : Rule)
    (t1 t2 : String) (i1 i2 : List Pair) (prec : Nat) (op1 op2 : Op) (f : Nat)
    (hca : PRATT_PARSER a.rule = .primaryRule)
    (hcb : PRATT_PARSER b.rule = .primaryRule)
    (hcc : PRATT_PARSER c.rule = .primaryRule)
    (hma : ∀ g, mapPrimaryF (g + 1) a = .ok ea)
    (hmb : ∀ g, mapPrimaryF (g + 1) b = .ok eb)
    (hmc : ∀ g, mapPrimaryF (g + 1) c = .ok ec)
    (hr1 : PRATT_PARSER r1 = .binRule .right prec)
    (hr2 : PRATT_PARSER r2 = .binRule .right prec)
    (ho1 : mapBinRule r1 = .ok op1)
    (ho2 : mapBinRule r2 = .ok op2) :
    parseExprF (f + 12) [a, Pair.mk r1 t1 i1, b, Pair.mk r2 t2 i2, c]
      = .ok (.BinOp ea op1 (.BinOp eb op2 ec)) := by
  simp [parseExprF, prattExprF, prattPrimaryF, prattLoopF, Pair.rule_mk,
    hca, hcb, hcc, hma, hmb, hmc, hr1, hr2, ho1, ho2, ok_bind, pure, Except.pure]

/-- A chain `a - b - c` of two left-associative operators of equal precedence
folds to the left. -/
theorem chainLeftAssoc (a b c : Pair) (ea eb ec : Expr) (r1 r2 : Rule)
    (t1 t2 : String) (i1 i2 : List Pair) (prec : Nat) (op1 op2 : Op) (f : Nat)
    (hca : PRATT_PARSER a.rule = .primaryRule)
    (hcb : PRATT_PARSER b.rule = .primaryRule)
    (hcc : PRATT_PARSER c.rule = .primaryRule)
    (hma : ∀ g, mapPrimaryF (g + 1) a = .ok ea)
    (hmb : ∀ g, mapPrimaryF (g + 1) b = .ok eb)
    (hmc : ∀ g, mapPrimaryF (g + 1) c = .ok ec)
    (hr1 : PRATT_PARSER r1 = .binRule .left prec)
    (hr2 : PRATT_PARSER r2 = .binRule .left prec)
    (ho1 : mapBinRule r1 = .ok op1)
    (ho2 : mapBinRule r2 = .ok op2) :
    parseExprF (f + 12) [a, Pair.mk r1 t1 i1, b, Pair.mk r2 t2 i2, c]
      = .ok (.BinOp (.BinOp ea op1 eb) op2 ec) := by
  have hlt : ¬ (prec + 1 ≤ prec) := by omega
  simp [parseExprF, prattExprF, prattPrimaryF, prattLoopF, Pair.rule_mk,
    hca, hcb, hcc, hma, hmb, hmc, hr1, hr2, ho1, ho2, hlt, ok_bind, pure, Except.pure]

/-- A chain `a op1 b op2 c` where `op1` is left-associative and binds more
weakly than `op2` groups as `a op1 (b op2 c)`. -/
theorem chainPrecedence (a b c : Pair) (ea eb ec : Expr) (r1 r2 : Rule)
    (t1 t2 : String) (i1 i2 : List Pair) (p1 p2 : Nat) (a2 : Assoc) (op1 op2 : Op) (f : Nat)
    (hca : PRATT_PARSER a.rule = .primaryRule)
    (hcb : PRATT_PARSER b.rule = .primaryRule)
    (hcc : PRATT_PARSER c.rule = .primaryRule)
    (hma : ∀ g, mapPrimaryF (g + 1) a = .ok ea)
    (hmb : ∀ g, mapPrimaryF (g + 1) b = .ok eb)
    (hmc : ∀ g, mapPrimaryF (g + 1) c = .ok ec)
    (hr1 : PRATT_PARSER r1 = .binRule .left p1)
    (hr2 : PRATT_PARSER r2 = .binRule a2 p2)
    (hp : p1 < p2)
    (ho1 : mapBinRule r1 = .ok op1)
    (ho2 : mapBinRule r2 = .ok op2) :
    parseExprF (f + 12) [a, Pair.mk r1 t1 i1, b, Pair.mk r2 t2 i2, c]
      = .ok (.BinOp ea op1 (.BinOp eb op2 ec)) := by
  have hle : p1 + 1 ≤ p2 := hp
  cases a2 with
  | left =>
    simp [parseExprF, prattExprF, prattPrimaryF, prattLoopF, Pair.rule_mk,
      hca, hcb, hcc, hma, hmb, hmc, hr1, hr2, hle, ho1, ho2, ok_bind, pure, Except.pure]
  | right =>
    simp [parseExprF, prattExprF, prattPrimaryF, prattLoopF, Pair.rule_mk,
      hca, hcb, hcc, hma, hmb, hmc, hr1, hr2, hle, ho1, ho2, ok_bind, pure, Except.pure]

/-- A unary minus before `a` in `- a op b` binds to the primary alone, before
any registered binary operator can combine: the result is
`(UnaryMinus a) op b` for every binary rule of the table. -/
theorem chainUnaryMinusBindsTighter (a b : Pair) (ea eb : Expr) (r : Rule)
    (t0 t1 : String) (i0 i1 : List Pair) (asc : Assoc) (prec : Nat) (op : Op) (f : Nat)
    (hca : PRATT_PARSER a.rule = .primaryRule)
    (hcb : PRATT_PARSER b.rule = .primaryRule)
    (hma : ∀ g, mapPrimaryF (g + 1) a = .ok ea)
    (hmb : ∀ g, mapPrimaryF (g + 1) b = .ok eb)
    (hr : PRATT_PARSER r = .binRule asc prec)
    (ho : mapBinRule r = .ok op) :
    parseExprF (f + 12) [Pair.mk .unary_minus t0 i0, a, Pair.mk r t1 i1, b]
      = .ok (.BinOp (.UnaryMinus ea) op eb) := by
  have hlt : ¬ (40 ≤ prec) := by
    have := binRule_prec_lt hr
    omega
  have hum : PRATT_PARSER Rule.unary_minus = Affix.preRule 40 := rfl
  cases asc with
  | left =>
    simp [parseExprF, prattExprF, prattPrimaryF, prattLoopF, Pair.rule_mk, hum,
      hca, hcb, hma, hmb, hr, ho, hlt, ok_bind, pure, Except.pure]
  | right =>
    simp [parseExprF, prattExprF, prattPrimaryF, prattLoopF, Pair.rule_mk, hum,
      hca, hcb, hma, hmb, hr, ho, hlt, ok_bind, pure, Except.pure]

/-- Shape of `parse_function` on a grammar-shaped function body: the
`function_name` text becomes the name, the parsed arguments the argument
list. -/
theorem parseFunctionShape (nm t2 : String) (i1 argsPairs : List Pair)
    (es : List Expr) (f : Nat)
    (hargs : parseArgsF (f + 1) argsPairs = .ok es) :
    parseFunctionF (f + 4)
      [Pair.mk .function_name nm i1, Pair.mk .function_args t2 argsPairs]
      = .ok (.Function nm es) := by
  simp [parseFunctionF, parseFunctionGoF, Pair.rule_mk, Pair.text_mk, Pair.inner_mk,
    hargs, ok_bind, pure, Except.pure]

/-- Arguments are parsed independently, left to right, by `parse_expr` on
each argument pair's children. -/
theorem parseArgsOrder (a : Pair) (rest : List Pair) (f : Nat) :
    parseArgsF (f + 1) (a :: rest)
      = (parseExprF f a.inner) >>= fun e =>
        (parseArgsF f rest) >>= fun es => pure (e :: es) := rfl

/-- Token kinds the parsing stage recognizes: the three primary kinds of the
`map_primary` closure and the seven operator kinds registered in the table;
`function_name`, `function_args` and `equation` are unrecognized there. -/
def recognizedKind (r : Rule) : Bool :=
  match r with
  | .number => true
  | .expr => true
  | .function => true
  | .add => true
  | .subtract => true
  | .multiply => true
  | .divide => true
  | .modulo => true
  | .power => true
  | .unary_minus => true
  | _ => false

/-- A pair of any unrecognized kind consumed at primary position terminates
the climb with the expected-atom internal error, whatever its text, children,
following pairs and fuel. -/
theorem parseExprF_unrecognized_head (r : Rule) (t : String) (i rest : List Pair)
    (f : Nat) (h : recognizedKind r = false) :
    parseExprF (f + 4) (Pair.mk r t i :: rest) = .error (.expectedAtom r) := by
  cases r <;> simp [recognizedKind] at h <;>
    simp [parseExprF, prattExprF, prattPrimaryF, mapPrimaryF, Pair.rule_mk,
      PRATT_PARSER, error_bind, ok_bind]

/-- A number pair whose text fails the float parse terminates the climb with
the float-failure internal error, whatever the children, following pairs and
fuel. -/
theorem parseExprF_bad_number (t : String) (i rest : List Pair) (f : Nat)
    (h : parseFloat t = none) :
    parseExprF (f + 4) (Pair.mk .number t i :: rest) = .error (.floatFailure t) := by
  simp [parseExprF, prattExprF, prattPrimaryF, mapPrimaryF, Pair.rule_mk, Pair.text_mk,
    PRATT_PARSER, h, error_bind, ok_bind]

/-! Sanity checks mirroring the `#[test]` functions embedded in `parser.rs`
(`can_parse_minus`, `can_parse_power`, `can_parse_order_of_operations`,
`can_parse_tests_wikipedia`, `can_parse_functions`, `can_parse_decimal`). -/

theorem sourceTest_minus_on_power :
    parse "-3^-2" = .ok (.BinOp (.UnaryMinus (.Number (numv "3"))) .Power
      (.UnaryMinus (.Number (numv "2")))) := rfl

theorem sourceTest_wikipedia :
    parse "3+4*2/(1-5)^2^3" = .ok (.BinOp (.Number (numv "3")) .Add
      (.BinOp (.BinOp (.Number (numv "4")) .Multiply (.Number (numv "2"))) .Divide
        (.BinOp (.BinOp (.Number (numv "1")) .Subtract (.Number (numv "5"))) .Power
          (.BinOp (.Number (numv "2")) .Power (.Number (numv "3")))))) := rfl

theorem sourceTest_wikipedia_sin :
    parse "sin(max(2, 3) / 3 * 3.1415)" = .ok (.Function "sin"
      [.BinOp (.BinOp (.Function "max" [.Number (numv "2"), .Number (numv "3")])
        .Divide (.Number (numv "3"))) .Multiply (.Number (numv "3.1415"))]) := rfl

theorem sourceTest_decimal :
    parse "-3.2" = .ok (.UnaryMinus (.Number (numv "3.2"))) := rfl

theorem sourceTest_plus :
    parse "2+5" = .ok (.BinOp (.Number (numv "2")) .Add (.Number (numv "5")))
    ∧ parse "2+5+7" = .ok (.BinOp (.BinOp (.Number (numv "2")) .Add
        (.Number (numv "5"))) .Add (.Number (numv "7"))) := ⟨rfl, rfl⟩

theorem sourceTest_minus_chain :
    parse "-3--7" = .ok (.BinOp (.UnaryMinus (.Number (numv "3"))) .Subtract
      (.UnaryMinus (.Number (numv "7")))) := rfl

theorem sourceTest_multiply :
    parse "6*3*8" = .ok (.BinOp (.BinOp (.Number (numv "6")) .Multiply
      (.Number (numv "3"))) .Multiply (.Number (numv "8"))) := rfl

theorem sourceTest_divide :
    parse "1/9/5" = .ok (.BinOp (.BinOp (.Number (numv "1")) .Divide
      (.Number (numv "9"))) .Divide (.Number (numv "5"))) := rfl

theorem sourceTest_modulus :
    parse "3%2%3" = .ok (.BinOp (.BinOp (.Number (numv "3")) .Modulo
      (.Number (numv "2"))) .Modulo (.Number (numv "3"))) := rfl

theorem sourceTest_functions :
    parse "max(1, 2) + 4" = .ok (.BinOp (.Function "max"
        [.Number (numv "1"), .Number (numv "2")]) .Add (.Number (numv "4")))
    ∧ parse "4 + min(5, 4)" = .ok (.BinOp (.Number (numv "4")) .Add
        (.Function "min" [.Number (numv "5"), .Number (numv "4")])) := ⟨rfl, rfl⟩

theorem sourceTest_order_subtract :
    parse "2-4/3" = .ok (.BinOp (.Number (numv "2")) .Subtract
      (.BinOp (.Number (numv "4")) .Divide (.Number (numv "3"))))
    ∧ parse "(2-4)/3" = .ok (.BinOp (.BinOp (.Number (numv "2")) .Subtract
        (.Number (numv "4"))) .Divide (.Number (numv "3"))) := ⟨rfl, rfl⟩

theorem sourceTest_paren_power :
    parse "1+(2*3)^3" = .ok (.BinOp (.Number (numv "1")) .Add
      (.BinOp (.BinOp (.Number (numv "2")) .Multiply (.Number (numv "3"))) .Power
        (.Number (numv "3")))) := rfl

/-! The claims. -/

/-- C1: applied to any input string, the parse entry point produces either a
root `Expr` AST or the structured syntax-failure value — never anything else;
malformed input (the empty string, unbalanced parentheses on either side,
trailing stray characters) yields the syntax failure, so no partial or
best-guess AST exists for it. -/
theorem C1_parse_ast_or_syntax_failure :
    (∀ s : String, (∃ e, parse s = .ok e) ∨ (∃ err, parse s = .error err))
    ∧ parse "" = .error .grammarReject
    ∧ parse "(2+4" = .error .grammarReject
    ∧ parse "2+4)" = .error .grammarReject
    ∧ parse "2 3" = .error .grammarReject := by
  refine ⟨fun s => ?_, rfl, rfl, rfl, rfl⟩
  cases h : parse s with
  | ok e => exact Or.inl ⟨e, rfl⟩
  | error err => exact Or.inr ⟨err, rfl⟩

/-- C2: the power tier is right-associative: in a chain of two equal-tier
right-associative operators over any primaries, the right-hand side absorbs
the later operator first, and concretely `parse "3^2^4"` groups as
`3^(2^4)`. -/
theorem C2_power_right_associative :
    (∀ (a b c : Pair) (ea eb ec : Expr) (t1 t2 : String) (i1 i2 : List Pair) (f : Nat),
      PRATT_PARSER a.rule = .primaryRule →
      PRATT_PARSER b.rule = .primaryRule →
      PRATT_PARSER c.rule = .primaryRule →
      (∀ g, mapPrimaryF (g + 1) a = .ok ea) →
      (∀ g, mapPrimaryF (g + 1) b = .ok eb) →
      (∀ g, mapPrimaryF (g + 1) c = .ok ec) →
      parseExprF (f + 12) [a, Pair.mk .power t1 i1, b, Pair.mk .power t2 i2, c]
        = .ok (.BinOp ea .Power (.BinOp eb .Power ec)))
    ∧ parse "3^2^4" = .ok (.BinOp (.Number (numv "3")) .Power
        (.BinOp (.Number (numv "2")) .Power (.Number (numv "4")))) := by
  refine ⟨?_, rfl⟩
  intro a b c ea eb ec t1 t2 i1 i2 f hca hcb hcc hma hmb hmc
  exact chainRightAssoc a b c ea eb ec .power .power t1 t2 i1 i2 30 .Power .Power f
    hca hcb hcc hma hmb hmc rfl rfl rfl rfl

/-- Witness for C2: the general right-fold at the explicit token chain
`3 ^ 2 ^ 4`. -/
theorem C2_power_right_associative_witness :
    parseExprF (0 + 12) [Pair.mk .number "3" [], Pair.mk .power "^" [],
      Pair.mk .number "2" [], Pair.mk .power "^" [], Pair.mk .number "4" []]
      = .ok (.BinOp (.Number (numv "3")) .Power
        (.BinOp (.Number (numv "2")) .Power (.Number (numv "4")))) :=
  C2_power_right_associative.1 (Pair.mk .number "3" []) (Pair.mk .number "2" [])
    (Pair.mk .number "4" []) (.Number (numv "3")) (.Number (numv "2")) (.Number (numv "4"))
    "^" "^" [] [] 0 rfl rfl rfl (fun _ => rfl) (fun _ => rfl) (fun _ => rfl)

/-- C3: chains of two same-tier left-associative operators over any primaries
fold to the left, and concretely `parse "3-7-4"` groups as `(3-7)-4`. -/
theorem C3_left_associative_fold :
    (∀ (a b c : Pair) (ea eb ec : Expr) (r1 r2 : Rule) (t1 t2 : String)
        (i1 i2 : List Pair) (prec : Nat) (op1 op2 : Op) (f : Nat),
      PRATT_PARSER a.rule = .primaryRule →
      PRATT_PARSER b.rule = .primaryRule →
      PRATT_PARSER c.rule = .primaryRule →
      (∀ g, mapPrimaryF (g + 1) a = .ok ea) →
      (∀ g, mapPrimaryF (g + 1) b = .ok eb) →
      (∀ g, mapPrimaryF (g + 1) c = .ok ec) →
      PRATT_PARSER r1 = .binRule .left prec →
      PRATT_PARSER r2 = .binRule .left prec →
      mapBinRule r1 = .ok op1 →
      mapBinRule r2 = .ok op2 →
      parseExprF (f + 12) [a, Pair.mk r1 t1 i1, b, Pair.mk r2 t2 i2, c]
        = .ok (.BinOp (.BinOp ea op1 eb) op2 ec))
    ∧ parse "3-7-4" = .ok (.BinOp (.BinOp (.Number (numv "3")) .Subtract
        (.Number (numv "7"))) .Subtract (.Number (numv "4"))) := by
  refine ⟨?_, rfl⟩
  intro a b c ea eb ec r1 r2 t1 t2 i1 i2 prec op1 op2 f
    hca hcb hcc hma hmb hmc hr1 hr2 ho1 ho2
  exact chainLeftAssoc a b c ea eb ec r1 r2 t1 t2 i1 i2 prec op1 op2 f
    hca hcb hcc hma hmb hmc hr1 hr2 ho1 ho2

/-- Witness for C3: the general left fold at the explicit token chain
`3 - 7 - 4`. -/
theorem C3_left_associative_fold_witness :
    parseExprF (0 + 12) [Pair.mk .number "3" [], Pair.mk .subtract "-" [],
      Pair.mk .number "7" [], Pair.mk .subtract "-" [], Pair.mk .number "4" []]
      = .ok (.BinOp (.BinOp (.Number (numv "3")) .Subtract (.Number (numv "7")))
        .Subtract (.Number (numv "4"))) :=
  C3_left_associative_fold.1 (Pair.mk .number "3" []) (Pair.mk .number "7" [])
    (Pair.mk .number "4" []) (.Number (numv "3")) (.Number (numv "7")) (.Number (numv "4"))
    .subtract .subtract "-" "-" [] [] 10 .Subtract .Subtract 0 rfl rfl rfl
    (fun _ => rfl) (fun _ => rfl) (fun _ => rfl) rfl rfl rfl rfl

/-- C4: mixed-tier chains follow the table (add/subtract at 10, then
multiply/divide/modulo at 20, power at 30): a weaker left-associative operator
defers to any stronger one on its right; concretely `parse "2+4*3"` groups as
`2+(4*3)` and `parse "1+2*3^3"` as `1+(2*(3^3))`. -/
theorem C4_precedence_table :
    (∀ (a b c : Pair) (ea eb ec : Expr) (r1 r2 : Rule) (t1 t2 : String)
        (i1 i2 : List Pair) (p1 p2 : Nat) (a2 : Assoc) (op1 op2 : Op) (f : Nat),
      PRATT_PARSER a.rule = .primaryRule →
      PRATT_PARSER b.rule = .primaryRule →
      PRATT_PARSER c.rule = .primaryRule →
      (∀ g, mapPrimaryF (g + 1) a = .ok ea) →
      (∀ g, mapPrimaryF (g + 1) b = .ok eb) →
      (∀ g, mapPrimaryF (g + 1) c = .ok ec) →
      PRATT_PARSER r1 = .binRule .left p1 →
      PRATT_PARSER r2 = .binRule a2 p2 →
      p1 < p2 →
      mapBinRule r1 = .ok op1 →
      mapBinRule r2 = .ok op2 →
      parseExprF (f + 12) [a, Pair.mk r1 t1 i1, b, Pair.mk r2 t2 i2, c]
        = .ok (.BinOp ea op1 (.BinOp eb op2 ec)))
    ∧ PRATT_PARSER .add = .binRule .left 10
    ∧ PRATT_PARSER .subtract = .binRule .left 10
    ∧ PRATT_PARSER .multiply = .binRule .left 20
    ∧ PRATT_PARSER .divide = .binRule .left 20
    ∧ PRATT_PARSER .modulo = .binRule .left 20
    ∧ PRATT_PARSER .power = .binRule .right 30
    ∧ parse "2+4*3" = .ok (.BinOp (.Number (numv "2")) .Add
        (.BinOp (.Number (numv "4")) .Multiply (.Number (numv "3"))))
    ∧ parse "1+2*3^3" = .ok (.BinOp (.Number (numv "1")) .Add
        (.BinOp (.Number (numv "2")) .Multiply
          (.BinOp (.Number (numv "3")) .Power (.Number (numv "3"))))) := by
  refine ⟨?_, rfl, rfl, rfl, rfl, rfl, rfl, rfl, rfl⟩
  intro a b c ea eb ec r1 r2 t1 t2 i1 i2 p1 p2 a2 op1 op2 f
    hca hcb hcc hma hmb hmc hr1 hr2 hp ho1 ho2
  exact chainPrecedence a b c ea eb ec r1 r2 t1 t2 i1 i2 p1 p2 a2 op1 op2 f
    hca hcb hcc hma hmb hmc hr1 hr2 hp ho1 ho2

/-- Witness for C4: the general mixed-tier grouping at the explicit token
chain `2 + 4 * 3`. -/
theorem C4_precedence_table_witness :
    parseExprF (0 + 12) [Pair.mk .number "2" [], Pair.mk .add "+" [],
      Pair.mk .number "4" [], Pair.mk .multiply "*" [], Pair.mk .number "3" []]
      = .ok (.BinOp (.Number (numv "2")) .Add
        (.BinOp (.Number (numv "4")) .Multiply (.Number (numv "3")))) :=
  C4_precedence_table.1 (Pair.mk .number "2" []) (Pair.mk .number "4" [])
    (Pair.mk .number "3" []) (.Number (numv "2")) (.Number (numv "4")) (.Number (numv "3"))
    .add .multiply "+" "*" [] [] 10 20 .left .Add .Multiply 0 rfl rfl rfl
    (fun _ => rfl) (fun _ => rfl) (fun _ => rfl) rfl rfl (by omega) rfl rfl

/-- C5: unary minus is a prefix operator binding more tightly than every
registered binary operator, applying to exactly the immediately following
primary (whatever that primary is — number, group or function call);
concretely `parse "-2+-5"` is `UnaryMinus(2) + UnaryMinus(5)` and
`parse "-sin(1)"` is `UnaryMinus(Function sin [1])`. -/
theorem C5_unary_minus_binds_tighter :
    (∀ (a b : Pair) (ea eb : Expr) (r : Rule) (t0 t1 : String) (i0 i1 : List Pair)
        (asc : Assoc) (prec : Nat) (op : Op) (f : Nat),
      PRATT_PARSER a.rule = .primaryRule →
      PRATT_PARSER b.rule = .primaryRule →
      (∀ g, mapPrimaryF (g + 1) a = .ok ea) →
      (∀ g, mapPrimaryF (g + 1) b = .ok eb) →
      PRATT_PARSER r = .binRule asc prec →
      mapBinRule r = .ok op →
      parseExprF (f + 12) [Pair.mk .unary_minus t0 i0, a, Pair.mk r t1 i1, b]
        = .ok (.BinOp (.UnaryMinus ea) op eb))
    ∧ parse "-2+-5" = .ok (.BinOp (.UnaryMinus (.Number (numv "2"))) .Add
        (.UnaryMinus (.Number (numv "5"))))
    ∧ parse "-sin(1)" = .ok (.UnaryMinus (.Function "sin" [.Number (numv "1")])) := by
  refine ⟨?_, rfl, rfl⟩
  intro a b ea eb r t0 t1 i0 i1 asc prec op f hca hcb hma hmb hr ho
  exact chainUnaryMinusBindsTighter a b ea eb r t0 t1 i0 i1 asc prec op f
    hca hcb hma hmb hr ho

/-- Witness for C5: the general prefix binding at the explicit token chain
`- 2 + 5`. -/
theorem C5_unary_minus_binds_tighter_witness :
    parseExprF (0 + 12) [Pair.mk .unary_minus "-" [], Pair.mk .number "2" [],
      Pair.mk .add "+" [], Pair.mk .number "5" []]
      = .ok (.BinOp (.UnaryMinus (.Number (numv "2"))) .Add (.Number (numv "5"))) :=
  C5_unary_minus_binds_tighter.1 (Pair.mk .number "2" []) (Pair.mk .number "5" [])
    (.Number (numv "2")) (.Number (numv "5")) .add "-" "+" [] [] .left 10 .Add 0
    rfl rfl (fun _ => rfl) (fun _ => rfl) rfl rfl

/-- C6: a grouped sub-expression is parsed by recursing on its inner token
sequence, the grouping marker itself discarded (the `expr` arm of the
`map_primary` closure), so `parse "(2+4)*3"` groups as `(2+4)*3`; the token
tree keeps no parenthesis node (only an `expr` pair over the inner sequence)
and the `Expr` type has no parenthesis constructor, so the AST carries no
trace of the parentheses. -/
theorem C6_parentheses_group_and_vanish :
    (∀ (f : Nat) (t : String) (i : List Pair),
      mapPrimaryF (f + 1) (Pair.mk .expr t i) = parseExprF f i)
    ∧ tokenize "(2+4)*3" = .ok (Pair.mk .equation "(2+4)*3"
        [Pair.mk .expr "" [Pair.mk .expr ""
            [Pair.mk .number "2" [], Pair.mk .add "+" [], Pair.mk .number "4" []],
          Pair.mk .multiply "*" [], Pair.mk .number "3" []]])
    ∧ parse "(2+4)*3" = .ok (.BinOp (.BinOp (.Number (numv "2")) .Add
        (.Number (numv "4"))) .Multiply (.Number (numv "3"))) :=
  ⟨fun _ _ _ => rfl, rfl, rfl⟩

/-- C7: a function pair parses to a `Function` node named by its
`function_name` child, with every argument parsed independently by the
climber on that argument's children, results kept in source left-to-right
order; empty argument lists are legal, and the nested example keeps its
argument boundaries. -/
theorem C7_function_calls :
    (∀ (nm t2 : String) (i1 argsPairs : List Pair) (es : List Expr) (f : Nat),
      parseArgsF (f + 1) argsPairs = .ok es →
      parseFunctionF (f + 4)
        [Pair.mk .function_name nm i1, Pair.mk .function_args t2 argsPairs]
        = .ok (.Function nm es))
    ∧ (∀ (a : Pair) (rest : List Pair) (f : Nat),
      parseArgsF (f + 1) (a :: rest)
        = (parseExprF f a.inner) >>= fun e =>
          (parseArgsF f rest) >>= fun es => pure (e :: es))
    ∧ parse "max()" = .ok (.Function "max" [])
    ∧ parse "7 + max(2, min(47.94, trunc(22.54)))" = .ok (.BinOp (.Number (numv "7"))
        .Add (.Function "max" [.Number (numv "2"), .Function "min"
          [.Number (numv "47.94"), .Function "trunc" [.Number (numv "22.54")]]])) := by
  refine ⟨?_, fun a rest f => rfl, rfl, rfl⟩
  intro nm t2 i1 argsPairs es f hargs
  exact parseFunctionShape nm t2 i1 argsPairs es f hargs

/-- Witness for C7: the general function shape at the explicit body of
`max(2)`. -/
theorem C7_function_calls_witness :
    parseFunctionF (4 + 4) [Pair.mk .function_name "max" [],
      Pair.mk .function_args "" [Pair.mk .expr "" [Pair.mk .number "2" []]]]
      = .ok (.Function "max" [.Number (numv "2")]) :=
  C7_function_calls.1 "max" "" [] [Pair.mk .expr "" [Pair.mk .number "2" []]]
    [.Number (numv "2")] 4 rfl

/-- C8 counterexample: the function-parsing stage, fed a token tree it can
receive (a `function` pair with no children at all), succeeds with the
silently-defaulted placeholder name — so the claim's universal quantification
over arbitrary token trees is false. -/
theorem C8_counterexample_placeholder_leaks :
    parse_function [] = .ok (.Function "parse_failure_function" [])
    ∧ placeholderFree (.Function "parse_failure_function" []) = false := ⟨rfl, rfl⟩

/-- C8 amended: restricted to token trees whose `function` pairs each contain
a `function_name` child and whose `function_name` texts are not themselves
the placeholder (which the grammar guarantees for every tree it produces,
short of an input literally naming a function `parse_failure_function`), a
successful parse contains no `"parse_failure_function"` name anywhere. -/
theorem C8_no_placeholder_in_good_trees :
    ∀ ps, PairsGood ps → ∀ e, parse_expr ps = .ok e → placeholderFree e = true :=
  fun ps hgood e h =>
    (noPlaceholderAux (Pair.sizeList ps)).2.2.2.2.1 ps le_rfl hgood (exprFuel ps) e h

/-- Witness for C8: the good token tree of `max(2)` parses to an AST with no
placeholder name. -/
theorem C8_no_placeholder_in_good_trees_witness :
    placeholderFree (.Function "max" [.Number (numv "2")]) = true :=
  C8_no_placeholder_in_good_trees
    [Pair.mk .function "" [Pair.mk .function_name "max" [],
      Pair.mk .function_args "" [Pair.mk .expr "" [Pair.mk .number "2" []]]]]
    (.cons _ _ (.mk _ _ _ rfl rfl
      (.cons _ _ (.mk _ _ _ rfl rfl .nil)
        (.cons _ _ (.mk _ _ _ rfl rfl
          (.cons _ _ (.mk _ _ _ rfl rfl
            (.cons _ _ (.mk _ _ _ rfl rfl .nil) .nil)) .nil)) .nil))) .nil)
    (.Function "max" [.Number (numv "2")]) rfl

/-- C9 counterexample: an unrecognized token kind can reach the
precedence-climbing logic and be silently ignored, against the claim's
"never silently ignored": after a complete expression, a `function_name` pair
at operator position stops the operator fold, the entry point drops the
leftover, and the parse succeeds — even though the very same kind is
unrecognized and would be the expected-atom internal error at primary
position. -/
theorem C9_counterexample_silent_drop :
    parse_expr [Pair.mk .number "2" [], Pair.mk .function_name "x" []]
      = .ok (.Number (numv "2"))
    ∧ recognizedKind .function_name = false
    ∧ mapPrimaryF 1 (Pair.mk .function_name "x" [])
      = .error (.expectedAtom .function_name) := ⟨rfl, rfl, rfl⟩

/-- C9 amended: at the detection sites the reporting is universal and loud —
every pair of an unrecognized kind consumed at primary position is the
distinct expected-atom internal error, for every text, children and following
pairs, and every number pair whose literal fails the float parse is the
distinct float-failure internal error; both are classified internal while the
grammar rejection is not.  (An unrecognized kind at operator position instead
stops the fold and is silently dropped at the top level — the
counterexample.) -/
theorem C9_internal_errors_universal :
    (∀ (r : Rule) (t : String) (i rest : List Pair), recognizedKind r = false →
      parse_expr (Pair.mk r t i :: rest) = .error (.expectedAtom r))
    ∧ (∀ (t : String) (i rest : List Pair), parseFloat t = none →
      parse_expr (Pair.mk .number t i :: rest) = .error (.floatFailure t))
    ∧ (∀ r, (ParseFailure.expectedAtom r).isInternal = true)
    ∧ (∀ s, (ParseFailure.floatFailure s).isInternal = true)
    ∧ ParseFailure.grammarReject.isInternal = false := by
  refine ⟨?_, ?_, fun r => rfl, fun s => rfl, rfl⟩
  · intro r t i rest h
    exact parseExprF_unrecognized_head r t i rest
      (4 * Pair.sizeList (Pair.mk r t i :: rest)) h
  · intro t i rest h
    exact parseExprF_bad_number t i rest
      (4 * Pair.sizeList (Pair.mk .number t i :: rest)) h

/-- Witness for C9: the universal reporting instantiated at a
`function_args` pair at primary position and at the literal "abc". -/
theorem C9_internal_errors_universal_witness :
    parse_expr [Pair.mk .function_args "" []] = .error (.expectedAtom .function_args)
    ∧ parse_expr [Pair.mk .number "abc" []] = .error (.floatFailure "abc") :=
  ⟨C9_internal_errors_universal.1 .function_args "" [] [] rfl,
   C9_internal_errors_universal.2.1 "abc" [] [] rfl⟩

/-- C10: on every grammar-shaped token tree the climb is total (it returns an
AST — in particular the embedding's fuel, the image of the Rust recursion,
never runs out) and deterministic (as a pure function of the token tree, two
runs agree). -/
theorem C10_total_deterministic :
    ∀ ps, WfSeq ps → (∃ e, parse_expr ps = .ok e)
      ∧ (∀ r1 r2, parse_expr ps = r1 → parse_expr ps = r2 → r1 = r2) := by
  intro ps h
  refine ⟨parse_expr_total ps h, fun r1 r2 h1 h2 => ?_⟩
  rw [← h1, ← h2]

/-- Witness for C10: the explicit token chain of `3-7-4` is grammar-shaped
and its parse succeeds. -/
theorem C10_total_deterministic_witness :
    ∃ e, parse_expr [Pair.mk .number "3" [], Pair.mk .subtract "-" [],
      Pair.mk .number "7" [], Pair.mk .subtract "-" [], Pair.mk .number "4" []]
      = .ok e :=
  (C10_total_deterministic
    [Pair.mk .number "3" [], Pair.mk .subtract "-" [], Pair.mk .number "7" [],
      Pair.mk .subtract "-" [], Pair.mk .number "4" []]
    (.prim _ _ (.num "3" [] rfl)
      (.cons _ _ rfl (.prim _ _ (.num "7" [] rfl)
        (.cons _ _ rfl (.prim _ _ (.num "4" [] rfl) .nil)))))).1


end NumericEvaluator
